import Mathlib

/-!
Shallow embedding of `examples/embedding/embedding.cpp`: the batch assembly
and embedding-extraction pipeline of the embedding example (separator
preprocessing, greedy batch assembly, native- and manual-pooling extractors,
mean pooling, and the output sink).  Floating-point values are idealized as
rationals (and reals where a square root is needed); buffers are modelled as
total functions from flat indices to values.
-/

namespace Embedding

/-- A token id (`int32_t` in the source, idealized as ℤ). -/
abbrev Token := Int

/-- Lines 181-185 of `embedding.cpp`: append the separator token when the
sequence is empty or does not already end with it. -/
def add_sep (sep : Token) (inp : List Token) : List Token :=
  if inp = [] ∨ inp.getLast? ≠ some sep then inp ++ [sep] else inp

/-- Lines 169-178 of `embedding.cpp`: the tokenize-and-check loop.  Each
prompt's token list is checked against `n_batch`; the first over-long prompt
aborts the run (`return 1`) before anything downstream happens. -/
def tokenize_check (n_batch : Nat) : List (List Token) → Except String (List (List Token))
  | [] => Except.ok []
  | inp :: rest =>
    if n_batch < inp.length then
      Except.error "number of tokens in input line exceeds batch size"
    else
      (tokenize_check n_batch rest).map (fun l => inp :: l)

/-- Lines 169-185 of `embedding.cpp`: tokenize-and-check, then the separator
append pass over the surviving inputs. -/
def prepare_inputs (n_batch : Nat) (sep : Token) (prompts_toks : List (List Token)) :
    Except String (List (List Token)) :=
  (tokenize_check n_batch prompts_toks).map (List.map (add_sep sep))

/-- Which extractor a decode call runs (line 221 vs lines 223 and 237). -/
inductive Extractor where
  | native
  | manual
deriving DecidableEq

/-- One decode call made by `main`: the extractor dispatched to, the
sequences contained in the batch, and the output offset `p` (in prompts). -/
structure DecodeEvent where
  ext : Extractor
  seqs : List (List Token)
  offset : Nat
deriving DecidableEq

/-- Total token count of a batch, viewed as its list of sequences. -/
def n_tokens (b : List (List Token)) : Nat := (b.map List.length).sum

/-- Lines 209-237 of `embedding.cpp`: the batch-assembly loop.  `cur` is the
current batch (as the list of sequences added by `batch_add_seq`), `p` the
number of prompts already flushed, `s` the number of sequences in `cur`.
When adding the next sequence would overflow `n_batch`, the current batch is
flushed through the extractor selected by `manual_pooling` (lines 218-228);
after the loop the final batch is always decoded by `batch_decode`, the
native-pooling extractor (lines 235-237). -/
def assemble_loop (manual_pooling : Bool) (n_batch : Nat) :
    List (List Token) → List (List Token) → Nat → Nat → List DecodeEvent
  | [], cur, p, _s => [⟨Extractor.native, cur, p⟩]
  | inp :: rest, cur, p, s =>
    if n_batch < n_tokens cur + inp.length then
      ⟨if manual_pooling then Extractor.manual else Extractor.native, cur, p⟩ ::
        assemble_loop manual_pooling n_batch rest [inp] (p + s) 1
    else
      assemble_loop manual_pooling n_batch rest (cur ++ [inp]) p (s + 1)

/-- The decode calls made by a run of `main`'s assembly phase on the
prepared inputs. -/
def run_decodes (manual_pooling : Bool) (n_batch : Nat) (inputs : List (List Token)) :
    List DecodeEvent :=
  assemble_loop manual_pooling n_batch inputs [] 0 0

/-- The batches (each as its list of sequences) produced by a run. -/
def run_batches (manual_pooling : Bool) (n_batch : Nat) (inputs : List (List Token)) :
    List (List (List Token)) :=
  (run_decodes manual_pooling n_batch inputs).map DecodeEvent.seqs

/-- Lines 161-237 of `embedding.cpp` up to the decode phase: check, append
separators, then assemble and decode.  An over-long prompt makes the whole
run fail before any batch exists. -/
def run_embedding (manual_pooling : Bool) (n_batch : Nat) (sep : Token)
    (prompts_toks : List (List Token)) : Except String (List DecodeEvent) :=
  (prepare_inputs n_batch sep prompts_toks).map (run_decodes manual_pooling n_batch)

/-! ## Buffers and `mean_pooling` -/

/-- Write `len` values of `v` into the flat buffer `out` starting at `base`
(`memcpy(out + base, v, len * sizeof(float))`, or a loop writing
`out[base + j] = v j` for `j < len`). -/
def write_region {α : Type} (out : Nat → α) (base len : Nat) (v : Nat → α) : Nat → α :=
  fun idx => if base ≤ idx ∧ idx < base + len then v (idx - base) else out idx

/-- A single store `out[k] = v` in a flat buffer. -/
def upd {α : Type} (out : Nat → α) (k : Nat) (v : α) : Nat → α :=
  fun j => if j = k then v else out j

/-- Lines 27-29 of `embedding.cpp`: `for (i < n_embd) out[i] = 0`. -/
def mp_zero (n_embd : Nat) (out : Nat → ℚ) : Nat → ℚ :=
  (List.range n_embd).foldl (fun o i => upd o i 0) out

/-- Line 32-34, inner loop for one token row `i`:
`for (j < n_embd) out[j] += embd[i * n_embd + j]`. -/
def mp_acc_row (embd : Nat → ℚ) (n_embd i : Nat) (out : Nat → ℚ) : Nat → ℚ :=
  (List.range n_embd).foldl (fun o j => upd o j (o j + embd (i * n_embd + j))) out

/-- Lines 31-35 of `embedding.cpp`: accumulate all `n_tokens` rows. -/
def mp_acc (embd : Nat → ℚ) (n_tokens n_embd : Nat) (out : Nat → ℚ) : Nat → ℚ :=
  (List.range n_tokens).foldl (fun o i => mp_acc_row embd n_embd i o) out

/-- Lines 37-39 of `embedding.cpp`: `for (i < n_embd) out[i] /= n_tokens`. -/
def mp_div (n_tokens n_embd : Nat) (out : Nat → ℚ) : Nat → ℚ :=
  (List.range n_embd).foldl (fun o i => upd o i (o i / (n_tokens : ℚ))) out

/-- Lines 26-40 of `embedding.cpp`: `mean_pooling(embd, out, n_tokens,
n_embd)` as a pure function from the input rows and the initial contents of
the `out` buffer to its final contents. -/
def mean_pooling (embd : Nat → ℚ) (out : Nat → ℚ) (n_tokens n_embd : Nat) : Nat → ℚ :=
  mp_div n_tokens n_embd (mp_acc embd n_tokens n_embd (mp_zero n_embd out))

/-! ## The manual-pooling extractor -/

/-- One token slot of a decoded `llama_batch`: its position within its
sequence (`batch.pos[i]`), its sequence id (`batch.seq_id[i][0]`), and its
output-marker flag (`batch.logits[i]`). -/
structure BTok where
  pos : Nat
  seq_id : Nat
  logits : Bool
deriving DecidableEq

/-- Loop state of `batch_decode_with_manual_pooling` (lines 83-107):
the flat `temp_out` buffer, the `token_of_seq` counter, the flat output
buffer, plus the trace of `n_tokens` arguments passed to `mean_pooling`. -/
structure MState where
  temp_out : Nat → ℚ
  token_of_seq : Nat
  output : Nat → ℚ
  calls : List Nat

/-- One iteration `i` of the token loop of
`batch_decode_with_manual_pooling` (lines 85-107).  Unmarked tokens and
failed fetches are skipped; a fetched row is copied into `temp_out`; at a
position reset (`i != 0 && batch.pos[i] == 0`) the previous
`token_of_seq` rows are mean-pooled into the output region of the previous
token's sequence id, and the counter restarts; it is incremented at the end
of every non-skipped iteration. -/
def manual_step (fetch : Nat → Option (Nat → ℚ)) (toks : List BTok) (n_embd : Nat)
    (st : MState) (i : Nat) : MState :=
  let t := toks.getD i ⟨0, 0, false⟩
  if t.logits = false then st
  else
    match fetch i with
    | none => st
    | some e =>
      let temp' := write_region st.temp_out (i * n_embd) n_embd e
      if i ≠ 0 ∧ t.pos = 0 then
        let tos := st.token_of_seq
        let seq_flat : Nat → ℚ := fun idx => temp' ((i - tos) * n_embd + idx)
        let prev := (toks.getD (i - 1) ⟨0, 0, false⟩).seq_id
        let out' := write_region st.output (prev * n_embd) n_embd
          (mean_pooling seq_flat (fun j => st.output (prev * n_embd + j)) tos n_embd)
        ⟨temp', 0 + 1, out', st.calls ++ [tos]⟩
      else
        ⟨temp', st.token_of_seq + 1, st.output, st.calls⟩

/-- Lines 72-108 of `embedding.cpp`: `batch_decode_with_manual_pooling`,
as a fold of `manual_step` over the token indices of the batch.  `fetch i`
models `llama_get_embeddings_ith(ctx, i)`; `garbage` is the uninitialized
contents of the `malloc`ed `temp_out` buffer; `output` is the caller's
output region.  Note that no flush of the final sequence happens after the
loop. -/
def batch_decode_with_manual_pooling (fetch : Nat → Option (Nat → ℚ)) (toks : List BTok)
    (output : Nat → ℚ) (n_embd : Nat) (garbage : Nat → ℚ) : MState :=
  (List.range toks.length).foldl (manual_step fetch toks n_embd) ⟨garbage, 0, output, []⟩

/-! ## The native-pooling extractor -/

/-- Modelled from the spec: `llama_embd_normalize` (defined in `common.cpp`,
which is not part of the packaged source) L2-normalizes a vector of
`n_embd` components — the output is the input divided by its Euclidean
norm, and a zero vector (norm zero) is left unchanged. -/
noncomputable def llama_embd_normalize (v : Nat → ℝ) (n_embd : Nat) : Nat → ℝ :=
  let norm := Real.sqrt (∑ i in Finset.range n_embd, v i ^ 2)
  fun i => if norm = 0 then v i else v i / norm

/-- One iteration `i` of the extraction loop of `batch_decode`
(lines 52-69): skip unmarked tokens; try the sequence-level embedding
`llama_get_embeddings_seq(ctx, seq_id)` first (`seq_emb`), fall back to the
per-token embedding `llama_get_embeddings_ith(ctx, i)` (`tok_emb`), skip
the token if both fail; on success write the L2-normalized vector into the
output region `output + seq_id * n_embd`. -/
noncomputable def decode_step (seq_emb : Nat → Option (Nat → ℝ)) (tok_emb : Nat → Option (Nat → ℝ))
    (toks : List BTok) (n_embd : Nat) (output : Nat → ℝ) (i : Nat) : Nat → ℝ :=
  let t := toks.getD i ⟨0, 0, false⟩
  if t.logits = false then output
  else
    match seq_emb t.seq_id with
    | some e => write_region output (t.seq_id * n_embd) n_embd (llama_embd_normalize e n_embd)
    | none =>
      match tok_emb i with
      | some e => write_region output (t.seq_id * n_embd) n_embd (llama_embd_normalize e n_embd)
      | none => output

/-- Lines 42-70 of `embedding.cpp`: `batch_decode`, the native-pooling
extractor, as a fold of `decode_step` over the token indices. -/
noncomputable def batch_decode (seq_emb : Nat → Option (Nat → ℝ)) (tok_emb : Nat → Option (Nat → ℝ))
    (toks : List BTok) (output : Nat → ℝ) (n_embd : Nat) : Nat → ℝ :=
  (List.range toks.length).foldl (decode_step seq_emb tok_emb toks n_embd) output

/-! ## The output sink -/

/-- The observable behavior of the output phase. -/
inductive OutputAction where
  | wrote_file (data : List ℚ)
  | file_open_failed
  | printed (shown : List (List ℚ))
deriving DecidableEq

/-- Lines 239-256 of `embedding.cpp`: the output sink.  With a configured
`logits_file` the flat buffer of `n_prompts * n_embd` floats is written to
the file when `fopen` succeeds (`open_ok`); a failed open writes nothing
and raises no error; with no configured path the first `min 3 n_prompts`
embedding vectors are printed to the diagnostic stream.  The second
component is `main`'s exit code for the phase (it always falls through to
`return 0`). -/
def write_output (logits_file : String) (open_ok : Bool) (emb : Nat → ℚ)
    (n_prompts n_embd : Nat) : OutputAction × Nat :=
  if logits_file ≠ "" then
    if open_ok then (OutputAction.wrote_file ((List.range (n_prompts * n_embd)).map emb), 0)
    else (OutputAction.file_open_failed, 0)
  else
    (OutputAction.printed ((List.range (min 3 n_prompts)).map fun j =>
      (List.range n_embd).map fun i => emb (j * n_embd + i)), 0)

/-! ## Concrete inputs used by witnesses and counterexamples -/

/-- A single-sequence batch of three marked tokens at positions 0, 1, 2. -/
def toks3 : List BTok := [⟨0, 0, true⟩, ⟨1, 0, true⟩, ⟨2, 0, true⟩]

/-- Fetch oracle producing the rows `[1,0]`, `[3,0]`, `[5,0]`
(`n_embd = 2`): row `i` has first component `2*i + 1`. -/
def fetch135 : Nat → Option (Nat → ℚ) :=
  fun i => some (fun j => if j = 0 then (2 * i + 1 : ℚ) else 0)

/-- The flat row-major buffer holding `[1,0]`, `[3,0]`, `[5,0]` with
`n_embd = 2`: entry `i*2 + j` is row `i`, component `j`. -/
def embd135 : Nat → ℚ :=
  fun idx => if idx % 2 = 0 then (2 * (idx / 2) + 1 : ℚ) else 0

/-- An all-zero rational buffer. -/
def zeroQ : Nat → ℚ := fun _ => 0

/-- A two-sequence batch: each sequence is a single marked token at
position 0, so index 1 is a position reset. -/
def toks2seq : List BTok := [⟨0, 0, true⟩, ⟨0, 1, true⟩]

/-- An all-zero real buffer. -/
def zeroR : Nat → ℝ := fun _ => 0

/-- An embedding oracle that always fails. -/
def noEmb : Nat → Option (Nat → ℝ) := fun _ => none

/-! ## Theorems -/

/-- If a list already ends in the separator, the append pass leaves it
unchanged. -/
theorem add_sep_eq_self {sep : Token} {l : List Token} (h : l.getLast? = some sep) :
    add_sep sep l = l := by
  have hne : l ≠ [] := by
    intro he
    rw [he] at h
    simp at h
  unfold add_sep
  rw [if_neg]
  push_neg
  exact ⟨hne, h⟩

/-- After the append pass, the separator is the last token. -/
theorem add_sep_getLast (sep : Token) (l : List Token) :
    (add_sep sep l).getLast? = some sep := by
  unfold add_sep
  split
  · exact List.getLast?_concat l
  · next h =>
    push_neg at h
    exact h.2

/-- Claim C7: after preprocessing the separator token is the last token of
every sequence, and the append step is idempotent — applying it to a
sequence that already ends with the separator leaves it unchanged, so
running it twice never duplicates the separator. -/
theorem sep_append_last_and_idempotent (sep : Token) (inp : List Token) :
    (add_sep sep inp).getLast? = some sep ∧
    add_sep sep (add_sep sep inp) = add_sep sep inp :=
  ⟨add_sep_getLast sep inp, add_sep_eq_self (add_sep_getLast sep inp)⟩

/-- Claim C9: the fatal length check runs on the raw tokenization, before
the separator append: a prompt of exactly `n_batch` tokens not ending in
the separator passes the check, and after preprocessing its sequence holds
`n_batch + 1` tokens, exceeding the stated per-sequence precondition. -/
theorem length_check_precedes_sep_append (n_batch : Nat) (sep : Token) (inp : List Token)
    (h1 : inp.length = n_batch) (h2 : inp.getLast? ≠ some sep) :
    prepare_inputs n_batch sep [inp] = Except.ok [inp ++ [sep]] ∧
    (inp ++ [sep]).length = n_batch + 1 ∧ n_batch < (inp ++ [sep]).length := by
  have hc : tokenize_check n_batch [inp] = Except.ok [inp] := by
    unfold tokenize_check
    rw [if_neg (by omega)]
    unfold tokenize_check
    rfl
  have hs : add_sep sep inp = inp ++ [sep] := by
    unfold add_sep
    rw [if_pos (Or.inr h2)]
  refine ⟨?_, by simp [h1], by simp [h1]⟩
  unfold prepare_inputs
  rw [hc]
  simp [Except.map, hs]

/-- Witness for `length_check_precedes_sep_append` at `n_batch = 2`,
`sep = 9`, prompt `[5, 7]`. -/
theorem length_check_precedes_sep_append_witness :
    ([5, 7] : List Token).length = 2 ∧ ([5, 7] : List Token).getLast? ≠ some 9 ∧
    prepare_inputs 2 9 [[5, 7]] = Except.ok [[5, 7, 9]] ∧
    ([5, 7, 9] : List Token).length = 2 + 1 :=
  ⟨by decide, by decide,
    (length_check_precedes_sep_append 2 9 [5, 7] (by decide) (by decide)).1,
    by decide⟩

/-- The tokenize-and-check loop fails whenever some prompt is over-long. -/
theorem tokenize_check_error (n_batch : Nat) (toks : List (List Token))
    (h : ∃ inp ∈ toks, n_batch < inp.length) :
    tokenize_check n_batch toks =
      Except.error "number of tokens in input line exceeds batch size" := by
  induction toks with
  | nil => simp at h
  | cons inp rest ih =>
    unfold tokenize_check
    by_cases hc : n_batch < inp.length
    · rw [if_pos hc]
    · rw [if_neg hc]
      obtain ⟨i, hi, hl⟩ := h
      rcases List.mem_cons.mp hi with rfl | hi
      · exact absurd hl hc
      · rw [ih ⟨i, hi, hl⟩]
        rfl

/-- Claim C4: a prompt tokenizing to more than `n_batch` tokens makes the
whole run fail during the tokenize-and-check loop, before any batch is
assembled and before any decode, so zero embeddings are produced. -/
theorem overlong_prompt_aborts_run (manual_pooling : Bool) (n_batch : Nat) (sep : Token)
    (prompts_toks : List (List Token)) (h : ∃ inp ∈ prompts_toks, n_batch < inp.length) :
    run_embedding manual_pooling n_batch sep prompts_toks =
      Except.error "number of tokens in input line exceeds batch size" := by
  unfold run_embedding prepare_inputs
  rw [tokenize_check_error n_batch prompts_toks h]
  rfl

/-- Witness for `overlong_prompt_aborts_run`: a 3-token prompt with
`n_batch = 2`. -/
theorem overlong_prompt_aborts_run_witness :
    (∃ inp ∈ ([[1, 2, 3]] : List (List Token)), 2 < inp.length) ∧
    run_embedding false 2 9 [[1, 2, 3]] =
      Except.error "number of tokens in input line exceeds batch size" :=
  ⟨by decide, overlong_prompt_aborts_run false 2 9 [[1, 2, 3]] (by decide)⟩

/-- The assembly loop always produces at least one decode event. -/
theorem assemble_loop_ne_nil (m : Bool) (nb : Nat) :
    ∀ (inputs cur : List (List Token)) (p s : Nat),
      assemble_loop m nb inputs cur p s ≠ [] := by
  intro inputs
  induction inputs with
  | nil => intro cur p s; simp [assemble_loop]
  | cons inp rest ih =>
    intro cur p s
    unfold assemble_loop
    split
    · simp
    · exact ih (cur ++ [inp]) p (s + 1)

/-- The last decode event of the assembly loop always dispatches to the
native extractor (line 237 calls `batch_decode` unconditionally). -/
theorem assemble_loop_last_native (m : Bool) (nb : Nat) :
    ∀ (inputs cur : List (List Token)) (p s : Nat),
      ((assemble_loop m nb inputs cur p s).getLast?).map DecodeEvent.ext =
        some Extractor.native := by
  intro inputs
  induction inputs with
  | nil => intro cur p s; simp [assemble_loop]
  | cons inp rest ih =>
    intro cur p s
    unfold assemble_loop
    split
    · obtain ⟨e, es, he⟩ :=
        List.exists_cons_of_ne_nil (assemble_loop_ne_nil m nb rest [inp] (p + s) 1)
      rw [he, List.getLast?_cons_cons, ← he, ih]
    · exact ih (cur ++ [inp]) p (s + 1)

/-- Claim C1 (refuting evaluation): in a manual-pooling run whose single
2-token prompt fits in one batch of capacity 4, the only decode — the final
batch after the assembly loop — is dispatched to `batch_decode`, the
native-pooling extractor; and in every manual-pooling run the last decode
event is native, so the claim that the manual extractor processes every
batch fails on the code. -/
theorem manual_run_final_batch_is_native :
    run_decodes true 4 [[0, 1]] = [⟨Extractor.native, [[0, 1]], 0⟩] ∧
    Extractor.native ≠ Extractor.manual ∧
    ∀ (nb : Nat) (inputs : List (List Token)),
      ((run_decodes true nb inputs).getLast?).map DecodeEvent.ext =
        some Extractor.native :=
  ⟨by decide, by decide,
    fun nb inputs => assemble_loop_last_native true nb inputs [] 0 0⟩

/-- Claim C2 (refuting evaluation): on a decoded batch holding a single
3-token sequence with per-token embeddings `[1,0]`, `[3,0]`, `[5,0]` (all
tokens marked, every fetch succeeding), the manual-pooling extractor makes
no `mean_pooling` call at all and leaves the sequence's output region at
its initial zeros, although the mean the claim requires is `[3,0]` — the
final sequence of a batch is never flushed after the token loop. -/
theorem manual_final_sequence_not_flushed :
    (batch_decode_with_manual_pooling fetch135 toks3 zeroQ 2 zeroQ).calls = [] ∧
    (batch_decode_with_manual_pooling fetch135 toks3 zeroQ 2 zeroQ).output 0 = 0 ∧
    (batch_decode_with_manual_pooling fetch135 toks3 zeroQ 2 zeroQ).output 1 = 0 ∧
    mean_pooling embd135 zeroQ 3 2 0 = 3 ∧ (3 : ℚ) ≠ 0 := by
  refine ⟨by decide, by decide, by decide, ?_, by norm_num⟩
  simp only [mean_pooling, mp_div, mp_acc, mp_acc_row, mp_zero, upd, embd135, zeroQ,
    show List.range 2 = [0, 1] from rfl, show List.range 3 = [0, 1, 2] from rfl,
    List.foldl_cons, List.foldl_nil]
  norm_num

/-- Token count distributes over batch concatenation. -/
theorem n_tokens_append (a b : List (List Token)) :
    n_tokens (a ++ b) = n_tokens a + n_tokens b := by
  simp [n_tokens]

/-- The sequences of all batches produced by the assembly loop, in order,
are the current batch followed by the remaining inputs. -/
theorem assemble_loop_join (m : Bool) (nb : Nat) :
    ∀ (inputs cur : List (List Token)) (p s : Nat),
      ((assemble_loop m nb inputs cur p s).map DecodeEvent.seqs).flatten = cur ++ inputs := by
  intro inputs
  induction inputs with
  | nil => intro cur p s; simp [assemble_loop]
  | cons inp rest ih =>
    intro cur p s
    unfold assemble_loop
    split
    · simp [ih]
    · simp [ih]

/-- If the current batch is within capacity and every remaining sequence
fits in a batch, every batch the assembly loop produces is within
capacity. -/
theorem assemble_loop_capacity (m : Bool) (nb : Nat) :
    ∀ (inputs cur : List (List Token)) (p s : Nat),
      n_tokens cur ≤ nb → (∀ inp ∈ inputs, inp.length ≤ nb) →
      ∀ b ∈ (assemble_loop m nb inputs cur p s).map DecodeEvent.seqs, n_tokens b ≤ nb := by
  intro inputs
  induction inputs with
  | nil =>
    intro cur p s hcur _ b hb
    simp [assemble_loop] at hb
    rwa [hb]
  | cons inp rest ih =>
    intro cur p s hcur hin b hb
    rw [assemble_loop] at hb
    split at hb
    · simp only [List.map_cons, List.mem_cons] at hb
      rcases hb with rfl | hb
      · exact hcur
      · refine ih [inp] (p + s) 1 ?_ (fun i hi => hin i (List.mem_cons_of_mem inp hi)) b hb
        simpa [n_tokens] using hin inp (List.mem_cons_self inp rest)
    · next hov =>
      refine ih (cur ++ [inp]) p (s + 1) ?_ (fun i hi => hin i (List.mem_cons_of_mem inp hi)) b hb
      rw [n_tokens_append]
      simp only [not_lt] at hov
      simpa [n_tokens] using hov

/-- The first batch the assembly loop produces extends the current batch. -/
theorem assemble_loop_headI (m : Bool) (nb : Nat) :
    ∀ (inputs cur : List (List Token)) (p s : Nat),
      ∃ t, ((assemble_loop m nb inputs cur p s).map DecodeEvent.seqs).headI = cur ++ t := by
  intro inputs
  induction inputs with
  | nil => intro cur p s; exact ⟨[], by simp [assemble_loop]⟩
  | cons inp rest ih =>
    intro cur p s
    unfold assemble_loop
    split
    · exact ⟨[], by simp⟩
    · obtain ⟨t, ht⟩ := ih (cur ++ [inp]) p (s + 1)
      exact ⟨inp :: t, by rw [ht]; simp⟩

/-- Each flushed batch, together with the first sequence of the following
batch, exceeds the capacity: the greedy policy only flushes when adding the
next sequence would overflow. -/
theorem assemble_loop_greedy (m : Bool) (nb : Nat) :
    ∀ (inputs cur : List (List Token)) (p s : Nat),
      List.Chain' (fun b1 b2 => nb < n_tokens b1 + b2.headI.length)
        ((assemble_loop m nb inputs cur p s).map DecodeEvent.seqs) := by
  intro inputs
  induction inputs with
  | nil => intro cur p s; simp [assemble_loop]
  | cons inp rest ih =>
    intro cur p s
    unfold assemble_loop
    split
    · next hov =>
      rw [List.map_cons, List.chain'_cons']
      refine ⟨?_, ih [inp] (p + s) 1⟩
      intro b hb
      obtain ⟨e, es, he⟩ :=
        List.exists_cons_of_ne_nil (assemble_loop_ne_nil m nb rest [inp] (p + s) 1)
      obtain ⟨t, ht⟩ := assemble_loop_headI m nb rest [inp] (p + s) 1
      rw [he] at hb ht
      simp only [List.map_cons, List.head?_cons, Option.mem_def, Option.some.injEq] at hb
      simp only [List.map_cons, List.headI_cons] at ht
      subst hb
      rw [ht]
      simpa using hov
    · exact ih (cur ++ [inp]) p (s + 1)

/-- Claim C3: for every capacity and every input list whose sequences each
fit in a batch, the assembly loop produces batches that never exceed
`n_batch` tokens, whose sequences — in order, unsplit, each exactly once —
concatenate back to the input list, and a flush only happens when adding
the next batch's first sequence would have overflowed the flushed batch. -/
theorem batch_assembler_invariants (m : Bool) (nb : Nat) (inputs : List (List Token))
    (h : ∀ inp ∈ inputs, inp.length ≤ nb) :
    (∀ b ∈ run_batches m nb inputs, n_tokens b ≤ nb) ∧
    (run_batches m nb inputs).flatten = inputs ∧
    List.Chain' (fun b1 b2 => nb < n_tokens b1 + b2.headI.length)
      (run_batches m nb inputs) :=
  ⟨assemble_loop_capacity m nb inputs [] 0 0 (by simp [n_tokens]) h,
   assemble_loop_join m nb inputs [] 0 0,
   assemble_loop_greedy m nb inputs [] 0 0⟩

/-- Witness for `batch_assembler_invariants`: capacity 3 and sequences of
lengths 2, 2, 1 (assembled as `[[1,2]]` and `[[3,4],[5]]`). -/
theorem batch_assembler_invariants_witness :
    (∀ inp ∈ ([[1, 2], [3, 4], [5]] : List (List Token)), inp.length ≤ 3) ∧
    ((∀ b ∈ run_batches false 3 [[1, 2], [3, 4], [5]], n_tokens b ≤ 3) ∧
     (run_batches false 3 [[1, 2], [3, 4], [5]]).flatten = [[1, 2], [3, 4], [5]] ∧
     List.Chain' (fun b1 b2 => 3 < n_tokens b1 + b2.headI.length)
       (run_batches false 3 [[1, 2], [3, 4], [5]])) :=
  ⟨by decide, batch_assembler_invariants false 3 [[1, 2], [3, 4], [5]] (by decide)⟩

/-- Reading the slot just stored. -/
theorem upd_same {α : Type} (o : Nat → α) (k : Nat) (v : α) : upd o k v k = v :=
  if_pos rfl

/-- Reading any other slot. -/
theorem upd_ne {α : Type} (o : Nat → α) {j k : Nat} (v : α) (h : j ≠ k) :
    upd o k v j = o j :=
  if_neg h

/-- A fold of independent stores `o[j] = o[j] + g j` over `0..m-1` acts
pointwise: slot `j` ends at `out j + g j` for `j < m` and is untouched
otherwise. -/
theorem foldl_upd_add (g : Nat → ℚ) (out : Nat → ℚ) :
    ∀ (m : Nat) (j : Nat),
      ((List.range m).foldl (fun o j => upd o j (o j + g j)) out) j =
        if j < m then out j + g j else out j := by
  intro m
  induction m with
  | zero => intro j; simp
  | succ n ih =>
    intro j
    rw [List.range_succ, List.foldl_append, List.foldl_cons, List.foldl_nil]
    rcases eq_or_ne j n with rfl | hne
    · rw [upd_same, ih j, if_neg (lt_irrefl j), if_pos (Nat.lt_succ_self j)]
    · rw [upd_ne _ _ hne, ih j]
      rcases Nat.lt_or_ge j n with h | h
      · rw [if_pos h, if_pos (Nat.lt_succ_of_lt h)]
      · rw [if_neg (by omega), if_neg (by omega)]

/-- A fold of independent stores `o[j] = v j` over `0..m-1` acts
pointwise. -/
theorem foldl_upd_set (v : Nat → ℚ) (out : Nat → ℚ) :
    ∀ (m : Nat) (j : Nat),
      ((List.range m).foldl (fun o j => upd o j (v j)) out) j =
        if j < m then v j else out j := by
  intro m
  induction m with
  | zero => intro j; simp
  | succ n ih =>
    intro j
    rw [List.range_succ, List.foldl_append, List.foldl_cons, List.foldl_nil]
    rcases eq_or_ne j n with rfl | hne
    · rw [upd_same, if_pos (Nat.lt_succ_self j)]
    · rw [upd_ne _ _ hne, ih j]
      rcases Nat.lt_or_ge j n with h | h
      · rw [if_pos h, if_pos (Nat.lt_succ_of_lt h)]
      · rw [if_neg (by omega), if_neg (by omega)]

/-- A fold of independent stores `o[j] = o[j] / c` over `0..m-1` acts
pointwise. -/
theorem foldl_upd_div (c : ℚ) (out : Nat → ℚ) :
    ∀ (m : Nat) (j : Nat),
      ((List.range m).foldl (fun o j => upd o j (o j / c)) out) j =
        if j < m then out j / c else out j := by
  intro m
  induction m with
  | zero => intro j; simp
  | succ n ih =>
    intro j
    rw [List.range_succ, List.foldl_append, List.foldl_cons, List.foldl_nil]
    rcases eq_or_ne j n with rfl | hne
    · rw [upd_same, ih j, if_neg (lt_irrefl j), if_pos (Nat.lt_succ_self j)]
    · rw [upd_ne _ _ hne, ih j]
      rcases Nat.lt_or_ge j n with h | h
      · rw [if_pos h, if_pos (Nat.lt_succ_of_lt h)]
      · rw [if_neg (by omega), if_neg (by omega)]

/-- The zeroing loop of `mean_pooling`, pointwise. -/
theorem mp_zero_spec (n_embd : Nat) (out : Nat → ℚ) (j : Nat) :
    mp_zero n_embd out j = if j < n_embd then 0 else out j :=
  foldl_upd_set (fun _ => 0) out n_embd j

/-- The per-row accumulation loop of `mean_pooling`, pointwise. -/
theorem mp_acc_row_spec (embd : Nat → ℚ) (n_embd i : Nat) (out : Nat → ℚ) (j : Nat) :
    mp_acc_row embd n_embd i out j =
      if j < n_embd then out j + embd (i * n_embd + j) else out j :=
  foldl_upd_add (fun j => embd (i * n_embd + j)) out n_embd j

/-- The accumulation loop of `mean_pooling` sums the rows pointwise. -/
theorem mp_acc_spec (embd : Nat → ℚ) (n_tokens n_embd : Nat) (out : Nat → ℚ) (j : Nat) :
    mp_acc embd n_tokens n_embd out j =
      if j < n_embd then out j + ∑ i in Finset.range n_tokens, embd (i * n_embd + j)
      else out j := by
  induction n_tokens with
  | zero => simp [mp_acc]
  | succ n ih =>
    have hstep : mp_acc embd (n + 1) n_embd out =
        mp_acc_row embd n_embd n (mp_acc embd n n_embd out) := by
      unfold mp_acc
      rw [List.range_succ, List.foldl_append, List.foldl_cons, List.foldl_nil]
    rw [hstep, mp_acc_row_spec, ih]
    rcases Nat.lt_or_ge j n_embd with h | h
    · rw [if_pos h, if_pos h, if_pos h, Finset.sum_range_succ]
      ring
    · rw [if_neg (by omega), if_neg (by omega), if_neg (by omega)]

/-- The division loop of `mean_pooling`, pointwise. -/
theorem mp_div_spec (n_tokens n_embd : Nat) (out : Nat → ℚ) (j : Nat) :
    mp_div n_tokens n_embd out j =
      if j < n_embd then out j / (n_tokens : ℚ) else out j :=
  foldl_upd_div (n_tokens : ℚ) out n_embd j

/-- `mean_pooling` computes, in every component `j < n_embd`, the sum of
the rows' components divided by the number of rows. -/
theorem mean_pooling_spec (embd out : Nat → ℚ) (n_tokens n_embd : Nat) (j : Nat)
    (hj : j < n_embd) :
    mean_pooling embd out n_tokens n_embd j =
      (∑ i in Finset.range n_tokens, embd (i * n_embd + j)) / (n_tokens : ℚ) := by
  unfold mean_pooling
  rw [mp_div_spec, if_pos hj, mp_acc_spec, if_pos hj, mp_zero_spec, if_pos hj, zero_add]

/-- Claim C5: for every `n_tokens ≥ 1` and every `n_embd`, `mean_pooling`
writes into each output component `j < n_embd` the sum over all `n_tokens`
rows of component `j`, divided by `n_tokens` — the exact elementwise
arithmetic mean; in particular on the three rows `[1,0]`, `[3,0]`, `[5,0]`
it yields `[3,0]`. -/
theorem mean_pooling_is_exact_mean :
    (∀ (n_tokens n_embd : Nat), 1 ≤ n_tokens → ∀ (embd out : Nat → ℚ), ∀ j < n_embd,
      mean_pooling embd out n_tokens n_embd j =
        (∑ i in Finset.range n_tokens, embd (i * n_embd + j)) / (n_tokens : ℚ)) ∧
    mean_pooling embd135 zeroQ 3 2 0 = 3 ∧ mean_pooling embd135 zeroQ 3 2 1 = 0 := by
  refine ⟨fun n_tokens n_embd _ embd out j hj => mean_pooling_spec embd out n_tokens n_embd j hj,
    ?_, ?_⟩ <;>
  · simp only [mean_pooling, mp_div, mp_acc, mp_acc_row, mp_zero, upd, embd135, zeroQ,
      show List.range 2 = [0, 1] from rfl, show List.range 3 = [0, 1, 2] from rfl,
      List.foldl_cons, List.foldl_nil]
    norm_num

/-- Witness for `mean_pooling_is_exact_mean` at `n_tokens = 3`,
`n_embd = 2`, rows `[1,0]`, `[3,0]`, `[5,0]`, component 0. -/
theorem mean_pooling_is_exact_mean_witness :
    1 ≤ 3 ∧ 0 < 2 ∧
    mean_pooling embd135 zeroQ 3 2 0 =
      (∑ i in Finset.range 3, embd135 (i * 2 + 0)) / (3 : ℚ) :=
  ⟨by decide, by decide,
    mean_pooling_is_exact_mean.1 3 2 (by decide) embd135 zeroQ 0 (by decide)⟩

/-- Invariant of the manual-pooling token loop: when every token of the
batch is marked and every per-token fetch succeeds, after any number of
iterations all recorded `mean_pooling` arguments are positive, and the
`token_of_seq` counter is positive once at least one iteration ran. -/
theorem manual_fold_invariant (fetch : Nat → Option (Nat → ℚ)) (toks : List BTok)
    (n_embd : Nat) (output garbage : Nat → ℚ)
    (hmark : ∀ t ∈ toks, t.logits = true)
    (hfetch : ∀ i < toks.length, (fetch i).isSome = true) :
    ∀ m ≤ toks.length,
      (∀ n ∈ ((List.range m).foldl (manual_step fetch toks n_embd)
          ⟨garbage, 0, output, []⟩).calls, 1 ≤ n) ∧
      (1 ≤ m → 1 ≤ ((List.range m).foldl (manual_step fetch toks n_embd)
          ⟨garbage, 0, output, []⟩).token_of_seq) := by
  intro m
  induction m with
  | zero =>
    intro _
    refine ⟨fun n hn => ?_, fun h => absurd h (by omega)⟩
    simp at hn
  | succ k ih =>
    intro hm
    obtain ⟨ih1, ih2⟩ := ih (by omega)
    have hk : k < toks.length := by omega
    have htmem : toks.getD k ⟨0, 0, false⟩ ∈ toks := by
      rw [List.getD_eq_getElem?_getD, List.getElem?_eq_getElem hk]
      exact List.getElem_mem hk
    have hlog : (toks.getD k ⟨0, 0, false⟩).logits = true := hmark _ htmem
    obtain ⟨e, he⟩ := Option.isSome_iff_exists.mp (hfetch k hk)
    rw [List.range_succ, List.foldl_append, List.foldl_cons, List.foldl_nil]
    set st := (List.range k).foldl (manual_step fetch toks n_embd)
      (⟨garbage, 0, output, []⟩ : MState) with hst
    unfold manual_step
    simp only [hlog, he, Bool.true_eq_false, if_false]
    split
    · next hcond =>
      refine ⟨fun n hn => ?_, fun _ => le_refl 1⟩
      simp only [List.mem_append, List.mem_singleton] at hn
      rcases hn with hn | rfl
      · exact ih1 n hn
      · exact ih2 (by omega)
    · exact ⟨ih1, fun _ => by simp⟩

/-- Claim C10: `mean_pooling` divides by its `n_tokens` argument without a
guard; at its call site inside the manual-pooling extractor, whenever every
token of the batch is marked (as the manual-pooling assembler marks all
tokens) and every per-token embedding fetch succeeds, each call receives a
`token_of_seq` argument of at least 1, so the divisor is nonzero and the
division well-defined. -/
theorem manual_pooling_divisor_positive (fetch : Nat → Option (Nat → ℚ)) (toks : List BTok)
    (output : Nat → ℚ) (n_embd : Nat) (garbage : Nat → ℚ)
    (hmark : ∀ t ∈ toks, t.logits = true)
    (hfetch : ∀ i < toks.length, (fetch i).isSome = true) :
    ∀ n ∈ (batch_decode_with_manual_pooling fetch toks output n_embd garbage).calls,
      1 ≤ n ∧ (n : ℚ) ≠ 0 := by
  intro n hn
  have h := (manual_fold_invariant fetch toks n_embd output garbage hmark hfetch
    toks.length le_rfl).1 n hn
  exact ⟨h, Nat.cast_ne_zero.mpr (by omega)⟩

/-- Witness for `manual_pooling_divisor_positive`: the two-sequence batch
`toks2seq` with the always-succeeding fetch `fetch135`. -/
theorem manual_pooling_divisor_positive_witness :
    (∀ t ∈ toks2seq, t.logits = true) ∧
    (∀ i < toks2seq.length, (fetch135 i).isSome = true) ∧
    ∀ n ∈ (batch_decode_with_manual_pooling fetch135 toks2seq zeroQ 2 zeroQ).calls,
      1 ≤ n ∧ (n : ℚ) ≠ 0 :=
  ⟨by decide, by decide,
    manual_pooling_divisor_positive fetch135 toks2seq zeroQ 2 zeroQ
      (by decide) (by decide)⟩

/-- Writes into the output region of another sequence id never touch this
sequence's region: regions are disjoint, indexed by sequence id. -/
theorem write_region_other_seq {α : Type} (out : Nat → α) (v : Nat → α)
    {s s' n j : Nat} (hne : s' ≠ s) (hj : j < n) :
    write_region out (s' * n) n v (s * n + j) = out (s * n + j) := by
  unfold write_region
  rw [if_neg]
  rintro ⟨h1, h2⟩
  have hs1 : s' < s + 1 := by
    have h : s' * n < (s + 1) * n := by
      calc s' * n ≤ s * n + j := h1
        _ < s * n + n := by omega
        _ = (s + 1) * n := by ring
    exact lt_of_mul_lt_mul_right h (Nat.zero_le n)
  have hs2 : s < s' + 1 := by
    have h : s * n < (s' + 1) * n := by
      calc s * n ≤ s * n + j := Nat.le_add_right _ _
        _ < s' * n + n := h2
        _ = (s' + 1) * n := by ring
    exact lt_of_mul_lt_mul_right h (Nat.zero_le n)
  omega

/-- A vector with a nonzero component among the first `n_embd` is divided
by its Euclidean norm. -/
theorem llama_embd_normalize_nonzero (v : Nat → ℝ) (n_embd : Nat)
    (hv : ∃ i < n_embd, v i ≠ 0) (i : Nat) :
    llama_embd_normalize v n_embd i =
      v i / Real.sqrt (∑ k in Finset.range n_embd, v k ^ 2) := by
  obtain ⟨i0, hi0, hvi⟩ := hv
  have hsum : 0 < ∑ k in Finset.range n_embd, v k ^ 2 :=
    Finset.sum_pos' (fun k _ => sq_nonneg (v k))
      ⟨i0, Finset.mem_range.mpr hi0, pow_two_pos_of_ne_zero hvi⟩
  have hnorm : Real.sqrt (∑ k in Finset.range n_embd, v k ^ 2) ≠ 0 :=
    ne_of_gt (Real.sqrt_pos.mpr hsum)
  unfold llama_embd_normalize
  simp only [if_neg hnorm]

/-- A zero vector is left unchanged by the normalization. -/
theorem llama_embd_normalize_zero (v : Nat → ℝ) (n_embd : Nat)
    (hv : ∀ i < n_embd, v i = 0) (i : Nat) :
    llama_embd_normalize v n_embd i = v i := by
  have hsum : ∑ k in Finset.range n_embd, v k ^ 2 = 0 :=
    Finset.sum_eq_zero fun k hk => by
      rw [hv k (Finset.mem_range.mp hk)]
      ring
  unfold llama_embd_normalize
  simp [hsum]

/-- When the sequence-level fetch succeeds at a marked position, the step
normalizes it into the region of that position's sequence id. -/
theorem decode_step_seq_available (seq_emb tok_emb : Nat → Option (Nat → ℝ))
    (toks : List BTok) (n_embd : Nat) (output : Nat → ℝ) (i : Nat) (e : Nat → ℝ)
    (hlog : (toks.getD i ⟨0, 0, false⟩).logits = true)
    (hseq : seq_emb (toks.getD i ⟨0, 0, false⟩).seq_id = some e) :
    decode_step seq_emb tok_emb toks n_embd output i =
      write_region output ((toks.getD i ⟨0, 0, false⟩).seq_id * n_embd) n_embd
        (llama_embd_normalize e n_embd) := by
  unfold decode_step
  simp only [hlog, Bool.true_eq_false, if_false, hseq]

/-- When the sequence-level fetch fails but the per-token fetch succeeds,
the step normalizes the per-token embedding into the same region. -/
theorem decode_step_token_fallback (seq_emb tok_emb : Nat → Option (Nat → ℝ))
    (toks : List BTok) (n_embd : Nat) (output : Nat → ℝ) (i : Nat) (e : Nat → ℝ)
    (hlog : (toks.getD i ⟨0, 0, false⟩).logits = true)
    (hseq : seq_emb (toks.getD i ⟨0, 0, false⟩).seq_id = none)
    (htok : tok_emb i = some e) :
    decode_step seq_emb tok_emb toks n_embd output i =
      write_region output ((toks.getD i ⟨0, 0, false⟩).seq_id * n_embd) n_embd
        (llama_embd_normalize e n_embd) := by
  unfold decode_step
  simp only [hlog, Bool.true_eq_false, if_false, hseq, htok]

/-- When both fetches fail at a marked position, the step writes nothing. -/
theorem decode_step_both_fail (seq_emb tok_emb : Nat → Option (Nat → ℝ))
    (toks : List BTok) (n_embd : Nat) (output : Nat → ℝ) (i : Nat)
    (hseq : seq_emb (toks.getD i ⟨0, 0, false⟩).seq_id = none)
    (htok : tok_emb i = none) :
    decode_step seq_emb tok_emb toks n_embd output i = output := by
  rcases h : (toks.getD i ⟨0, 0, false⟩).logits with _ | _
  · simp only [decode_step, h, reduceIte]
  · simp only [decode_step, h, Bool.true_eq_false, if_false, hseq, htok]

/-- One step never touches the region of a sequence id for which, at this
position, either the token is unmarked or both fetches fail. -/
theorem decode_step_preserves_region (seq_emb tok_emb : Nat → Option (Nat → ℝ))
    (toks : List BTok) (n_embd : Nat) (buf : Nat → ℝ) (i s j : Nat) (hj : j < n_embd)
    (h : (toks.getD i ⟨0, 0, false⟩).logits = true →
      (toks.getD i ⟨0, 0, false⟩).seq_id = s → seq_emb s = none ∧ tok_emb i = none) :
    decode_step seq_emb tok_emb toks n_embd buf i (s * n_embd + j) =
      buf (s * n_embd + j) := by
  rcases hlog : (toks.getD i ⟨0, 0, false⟩).logits with _ | _
  · simp only [decode_step, hlog, reduceIte]
  · rcases eq_or_ne (toks.getD i ⟨0, 0, false⟩).seq_id s with hs | hs
    · obtain ⟨hseq, htok⟩ := h hlog hs
      rw [decode_step_both_fail seq_emb tok_emb toks n_embd buf i (by rw [hs]; exact hseq) htok]
    · rcases hseq : seq_emb (toks.getD i ⟨0, 0, false⟩).seq_id with _ | e
      · rcases htok : tok_emb i with _ | e
        · rw [decode_step_both_fail seq_emb tok_emb toks n_embd buf i hseq htok]
        · rw [decode_step_token_fallback seq_emb tok_emb toks n_embd buf i e hlog hseq htok]
          exact write_region_other_seq buf _ hs hj
      · rw [decode_step_seq_available seq_emb tok_emb toks n_embd buf i e hlog hseq]
        exact write_region_other_seq buf _ hs hj

/-- If at every marked position of sequence id `s` both fetches fail, the
whole extraction loop leaves the region of `s` untouched. -/
theorem batch_decode_region_untouched (seq_emb tok_emb : Nat → Option (Nat → ℝ))
    (toks : List BTok) (output : Nat → ℝ) (n_embd : Nat) (s : Nat)
    (h : ∀ i < toks.length, (toks.getD i ⟨0, 0, false⟩).logits = true →
      (toks.getD i ⟨0, 0, false⟩).seq_id = s → seq_emb s = none ∧ tok_emb i = none) :
    ∀ j < n_embd,
      batch_decode seq_emb tok_emb toks output n_embd (s * n_embd + j) =
        output (s * n_embd + j) := by
  intro j hj
  have key : ∀ m ≤ toks.length,
      ((List.range m).foldl (decode_step seq_emb tok_emb toks n_embd) output)
          (s * n_embd + j) =
        output (s * n_embd + j) := by
    intro m
    induction m with
    | zero => intro _; rfl
    | succ k ih =>
      intro hm
      rw [List.range_succ, List.foldl_append, List.foldl_cons, List.foldl_nil,
        decode_step_preserves_region seq_emb tok_emb toks n_embd _ k s j hj (h k (by omega)),
        ih (by omega)]
  exact key toks.length le_rfl

/-- Claim C6: in the native-pooling extractor, a marked position first
tries the sequence-level pooled embedding; on failure it falls back to the
position's per-token embedding; if neither is available nothing is
written, so a sequence none of whose marked positions can be fetched keeps
its initialized all-zero output region; successful fetches are written
L2-normalized (divided by the Euclidean norm, a zero vector unchanged)
into the region selected by the position's sequence id. -/
theorem native_extractor_spec :
    (∀ (seq_emb tok_emb : Nat → Option (Nat → ℝ)) (toks : List BTok) (n_embd : Nat)
        (output : Nat → ℝ) (i : Nat) (e : Nat → ℝ),
      (toks.getD i ⟨0, 0, false⟩).logits = true →
      seq_emb (toks.getD i ⟨0, 0, false⟩).seq_id = some e →
      decode_step seq_emb tok_emb toks n_embd output i =
        write_region output ((toks.getD i ⟨0, 0, false⟩).seq_id * n_embd) n_embd
          (llama_embd_normalize e n_embd)) ∧
    (∀ (seq_emb tok_emb : Nat → Option (Nat → ℝ)) (toks : List BTok) (n_embd : Nat)
        (output : Nat → ℝ) (i : Nat) (e : Nat → ℝ),
      (toks.getD i ⟨0, 0, false⟩).logits = true →
      seq_emb (toks.getD i ⟨0, 0, false⟩).seq_id = none →
      tok_emb i = some e →
      decode_step seq_emb tok_emb toks n_embd output i =
        write_region output ((toks.getD i ⟨0, 0, false⟩).seq_id * n_embd) n_embd
          (llama_embd_normalize e n_embd)) ∧
    (∀ (seq_emb tok_emb : Nat → Option (Nat → ℝ)) (toks : List BTok) (n_embd : Nat)
        (output : Nat → ℝ) (i : Nat),
      seq_emb (toks.getD i ⟨0, 0, false⟩).seq_id = none →
      tok_emb i = none →
      decode_step seq_emb tok_emb toks n_embd output i = output) ∧
    (∀ (seq_emb tok_emb : Nat → Option (Nat → ℝ)) (toks : List BTok) (n_embd s : Nat),
      (∀ i < toks.length, (toks.getD i ⟨0, 0, false⟩).logits = true →
        (toks.getD i ⟨0, 0, false⟩).seq_id = s → seq_emb s = none ∧ tok_emb i = none) →
      ∀ j < n_embd,
        batch_decode seq_emb tok_emb toks zeroR n_embd (s * n_embd + j) = 0) ∧
    (∀ (v : Nat → ℝ) (n_embd : Nat),
      ((∃ i < n_embd, v i ≠ 0) → ∀ i,
        llama_embd_normalize v n_embd i =
          v i / Real.sqrt (∑ k in Finset.range n_embd, v k ^ 2)) ∧
      ((∀ i < n_embd, v i = 0) → ∀ i, llama_embd_normalize v n_embd i = v i)) := by
  refine ⟨decode_step_seq_available, decode_step_token_fallback,
    fun a b c d e f => decode_step_both_fail a b c d e f,
    fun seq_emb tok_emb toks n_embd s hs j hj => ?_,
    fun v n_embd => ⟨llama_embd_normalize_nonzero v n_embd,
      llama_embd_normalize_zero v n_embd⟩⟩
  rw [batch_decode_region_untouched seq_emb tok_emb toks zeroR n_embd s hs j hj]
  rfl

/-- Witness for `native_extractor_spec`: with always-failing fetch oracles
the step writes nothing, so the output region of the single-sequence batch
`toks3` keeps its all-zero default. -/
theorem native_extractor_spec_witness :
    noEmb (List.getD toks3 0 ⟨0, 0, false⟩).seq_id = none ∧ noEmb 0 = none ∧
    decode_step noEmb noEmb toks3 2 zeroR 0 = zeroR ∧ (0 : Nat) < 2 ∧
    batch_decode noEmb noEmb toks3 zeroR 2 (0 * 2 + 0) = 0 :=
  ⟨rfl, rfl,
    native_extractor_spec.2.2.1 noEmb noEmb toks3 2 zeroR 0 rfl rfl,
    by decide,
    native_extractor_spec.2.2.2.1 noEmb noEmb toks3 2 0
      (fun i _ _ _ => ⟨rfl, rfl⟩) 0 (by decide)⟩

/-- The flat buffer of `p * e` values read in index order is the
sequence-major concatenation: all `e` components of sequence 0, then of
sequence 1, and so on. -/
theorem range_mul_map_eq_seq_major (emb : Nat → ℚ) (p e : Nat) :
    (List.range (p * e)).map emb =
      ((List.range p).map fun j => (List.range e).map fun i => emb (j * e + i)).flatten := by
  induction p with
  | zero => simp
  | succ n ih =>
    rw [Nat.succ_mul, List.range_add, List.map_append, ih, List.range_succ,
      List.map_append, List.flatten_append]
    simp [List.map_map, Function.comp]

/-- Claim C8: exactly one of the two output behaviors occurs, selected by
whether a destination path was configured: with a path and a successful
open, the buffer of `n_prompts * n_embd` values is written to the file in
sequence-major order; with a path whose open fails, nothing is written, no
error is raised, and the run still exits 0; with no path, the first
`min 3 n_prompts` vectors are printed to the diagnostic stream; the exit
code is 0 in every case. -/
theorem output_sink_spec :
    (∀ (path : String) (emb : Nat → ℚ) (n_prompts n_embd : Nat),
      path ≠ "" →
      write_output path true emb n_prompts n_embd =
        (OutputAction.wrote_file
          (((List.range n_prompts).map fun j =>
            (List.range n_embd).map fun i => emb (j * n_embd + i)).flatten), 0)) ∧
    (∀ (path : String) (emb : Nat → ℚ) (n_prompts n_embd : Nat),
      path ≠ "" →
      write_output path false emb n_prompts n_embd = (OutputAction.file_open_failed, 0)) ∧
    (∀ (open_ok : Bool) (emb : Nat → ℚ) (n_prompts n_embd : Nat),
      write_output "" open_ok emb n_prompts n_embd =
        (OutputAction.printed ((List.range (min 3 n_prompts)).map fun j =>
          (List.range n_embd).map fun i => emb (j * n_embd + i)), 0)) ∧
    (∀ (path : String) (open_ok : Bool) (emb : Nat → ℚ) (n_prompts n_embd : Nat),
      (write_output path open_ok emb n_prompts n_embd).2 = 0) := by
  refine ⟨fun path emb n_prompts n_embd hpath => ?_,
    fun path emb n_prompts n_embd hpath => ?_,
    fun open_ok emb n_prompts n_embd => ?_,
    fun path open_ok emb n_prompts n_embd => ?_⟩
  · unfold write_output
    rw [if_pos hpath, if_pos rfl, range_mul_map_eq_seq_major]
  · unfold write_output
    rw [if_pos hpath, if_neg (by simp)]
  · unfold write_output
    rw [if_neg (by simp)]
  · unfold write_output
    split
    · split
      · rfl
      · rfl
    · rfl

/-- Witness for `output_sink_spec`: a configured path with a successful
open writes the 2-sequence, 2-component buffer sequence-major. -/
theorem output_sink_spec_witness :
    ("out.bin" : String) ≠ "" ∧
    write_output "out.bin" true embd135 2 2 =
      (OutputAction.wrote_file
        (((List.range 2).map fun j =>
          (List.range 2).map fun i => embd135 (j * 2 + i)).flatten), 0) :=
  ⟨by decide, output_sink_spec.1 "out.bin" embd135 2 2 (by decide)⟩

end Embedding
